import Mathlib

/-!
# Verification of the `gitowner` ownership-scoring core

This file gives a shallow embedding, in Lean 4, of the core of the
`gitowner` program (`gitowner.go`): identity resolution through an alias
table, exponential time-decay scoring of commit events, cross-repository
accumulation, the multi-repository bonus, and the final deterministic
ranking and truncation.

Modelling conventions:
* Go `float64` values (scores, decay parameters, times) are modelled as
  real numbers (`ℝ`); rounding noise is outside the scope of the claims.
* Go maps used as dictionaries (`map[string]string`,
  `map[string]float64`, `map[string]map[string]struct{}`) are modelled as
  functions `String → Option String`, `String → ℝ` (absent key = 0) and
  `String → Finset String` (absent key = ∅); Go's read-of-missing-key
  semantics coincides with these defaults at every use site in the code.
* Go map *iteration* order is not deterministic; wherever the program
  ranges over a map (the alias groups of the TOML file) the embedding
  takes the iteration order as an explicit list parameter.
* `strings.TrimSpace` / `strings.ToLower` are modelled on the ASCII
  fragment (whitespace as recognised by `Char.isWhitespace`, lowering of
  `'A'`–`'Z'`); the claims do not depend on non-ASCII case folding.
* The external collaborators (go-git, the TOML parser, the filesystem)
  are modelled by explicit outcome values describing what they delivered.
-/

namespace Gitowner

/-! ## String normalization: `strings.ToLower(strings.TrimSpace(s))` -/

/-- ASCII case lowering of one character, the fragment of Go's
`strings.ToLower` relevant here: `'A'`–`'Z'` shift by 32, everything else
is unchanged. -/
def lowerChar (c : Char) : Char :=
  if 'A' ≤ c ∧ c ≤ 'Z' then Char.ofNat (c.toNat + 32) else c

/-- Go's `strings.TrimSpace` on the character list: drop whitespace from
the front, then from the back (via reverse). -/
def trimChars (l : List Char) : List Char :=
  ((l.dropWhile Char.isWhitespace).reverse.dropWhile Char.isWhitespace).reverse

/-- `strings.ToLower(strings.TrimSpace(s))`, the normalization applied to
every raw identifier, canonical identifier and alias in `gitowner.go`. -/
def normalize (s : String) : String :=
  ⟨(trimChars s.data).map lowerChar⟩

/-! ## The alias table and its loader (`loadAliases`) -/

/-- The final alias dictionary: `alias_email -> canonical_email`
(`map[string]string` in Go, `none` = key absent). -/
abbrev AliasMap := String → Option String

/-- The loader's working state: the `aliasMap` being built and the
`duplicates` map recording last-write-wins conflicts, exactly the two
local maps of `loadAliases`. -/
structure LoadState where
  aliasMap : AliasMap
  duplicates : AliasMap

/-- The empty map (`make(map[string]string)`). -/
def emptyAliasMap : AliasMap := fun _ => none

/-- The body of the inner `for _, alias := range aliasList` loop of
`loadAliases`: normalize the alias, skip it when empty or equal to the
canonical, record a conflict in `duplicates` when the alias is already
mapped, and (re)assign `aliasMap[alias] = canonical`. -/
def processAliasEntry (canonical : String) (st : LoadState) (rawAlias : String) :
    LoadState :=
  let al := normalize rawAlias
  if al = "" ∨ al = canonical then st
  else
    let duplicates' :=
      if (st.aliasMap al).isSome then
        Function.update st.duplicates al (some canonical)
      else st.duplicates
    { aliasMap := Function.update st.aliasMap al (some canonical)
      duplicates := duplicates' }

/-- The body of the outer `for canonical, aliasList := range config.Aliases`
loop of `loadAliases`: normalize the canonical, skip empty canonicals,
skip the whole group when the canonical is already present as an alias
key, otherwise fold the group's alias list into the state. -/
def processGroup (st : LoadState) (g : String × List String) : LoadState :=
  let canonical := normalize g.1
  if canonical = "" then st
  else if (st.aliasMap canonical).isSome then st
  else g.2.foldl (processAliasEntry canonical) st

/-- The alias-table construction of `loadAliases`, given the groups of the
parsed TOML file *in the order Go's map iteration presents them*: fold all
groups, then re-apply the recorded `duplicates` entries ("last one wins"). -/
def buildAliasMap (groups : List (String × List String)) : AliasMap :=
  let st := groups.foldl processGroup ⟨emptyAliasMap, emptyAliasMap⟩
  fun al =>
    match st.duplicates al with
    | some canonical => some canonical
    | none => st.aliasMap al

/-- What the external filesystem/TOML collaborators delivered for the
alias file: the file is absent, reading failed for another reason,
parsing failed, or parsing succeeded with the given groups. -/
inductive AliasFileOutcome where
  | notExist : AliasFileOutcome
  | readFail : AliasFileOutcome
  | parseFail : AliasFileOutcome
  | parsed : List (String × List String) → AliasFileOutcome

/-- `loadAliases(filePath)`: empty path yields the empty map; a missing
file yields a warning and the empty map (not an error); a read or parse
failure is an error; otherwise the table is built from the parsed groups. -/
def loadAliases (filePath : String) (file : AliasFileOutcome) :
    Except String AliasMap :=
  if filePath = "" then .ok emptyAliasMap
  else
    match file with
    | .notExist => .ok emptyAliasMap
    | .readFail => .error "failed to read alias file"
    | .parseFail => .error "failed to parse alias file"
    | .parsed groups => .ok (buildAliasMap groups)

/-- `main`'s handling of the `loadAliases` result: on an error with a
non-empty `--aliases-file` flag the program exits (`none`); otherwise it
continues with the loaded table. -/
def mainAliasLoad (filePath : String) (file : AliasFileOutcome) :
    Option AliasMap :=
  match loadAliases filePath file with
  | .ok m => some m
  | .error _ => if filePath ≠ "" then none else some emptyAliasMap

/-! ## Identity resolution (`getCanonicalEmail`) -/

/-- `getCanonicalEmail`: normalize, look up in the alias map, fall back to
the normalized email itself. -/
def getCanonicalEmail (email : String) (aliasMap : AliasMap) : String :=
  let normalizedEmail := normalize email
  match aliasMap normalizedEmail with
  | some canonical => canonical
  | none => normalizedEmail

/-! ## Decay scoring and accumulation (`processRepoCommits`) -/

/-- One commit as delivered by go-git's history walk: the author email
and the author timestamp, measured in days (`authorWhenDays`), together
with whether the timestamp is the zero `time.Time`
(`c.Author.When.IsZero()`). -/
structure Commit where
  authorEmail : String
  authorWhenDays : ℝ
  whenIsZero : Bool

/-- The run-wide accumulation state: the three global maps of `main`
(`globalUserScores`, `userRepos`, `userAliasesUsed`), keyed by canonical
email. A key absent from the Go maps reads as `0` / `∅`, which is exactly
how the code uses them. -/
structure AccState where
  userScores : String → ℝ
  userRepos : String → Finset String
  userAliases : String → Finset String

/-- The initial empty maps created in `main`. -/
def initialAccState : AccState :=
  { userScores := fun _ => 0, userRepos := fun _ => ∅, userAliases := fun _ => ∅ }

/-- The decay weight computed for one commit (lines 146–151 of
`gitowner.go`): `daysAgo` clamped at zero, then `math.Exp(-daysAgo/tau)`. -/
noncomputable def commitWeight (daysAgo tau : ℝ) : ℝ :=
  let d := if daysAgo < 0 then 0 else daysAgo
  Real.exp (-d / tau)

/-- The body of the `commitIter.ForEach` callback of `processRepoCommits`:
skip `nil` commits, zero timestamps and empty author emails; otherwise
resolve the canonical email, add the decay weight to its score, record
the repository, and record the raw alias when it differs from the
canonical. -/
noncomputable def processCommit (tau : ℝ) (aliasMap : AliasMap)
    (repoPath : String) (now : ℝ) (st : AccState) (c : Option Commit) :
    AccState :=
  match c with
  | none => st
  | some c =>
    if c.whenIsZero then st
    else if c.authorEmail = "" then st
    else
      let canonicalEmail := getCanonicalEmail c.authorEmail aliasMap
      let originalNormalized := normalize c.authorEmail
      let daysAgo := now - c.authorWhenDays
      let weight := commitWeight daysAgo tau
      let st1 : AccState :=
        { st with
          userScores :=
            Function.update st.userScores canonicalEmail
              (st.userScores canonicalEmail + weight)
          userRepos :=
            Function.update st.userRepos canonicalEmail
              (insert repoPath (st.userRepos canonicalEmail)) }
      if originalNormalized ≠ canonicalEmail then
        { st1 with
          userAliases :=
            Function.update st1.userAliases canonicalEmail
              (insert originalNormalized (st1.userAliases canonicalEmail)) }
      else st1

/-- What go-git delivered for one repository: `PlainOpen` failed, `Head`
failed, `Log` failed, or the walk delivered the listed commits (each
possibly `nil`) and then either finished cleanly (`iterFail = false`) or
stopped with an iteration error (`iterFail = true`). Commits delivered
before a mid-walk error have already been handed to the callback. -/
inductive RepoOutcome where
  | openFail : RepoOutcome
  | headFail : RepoOutcome
  | logFail : RepoOutcome
  | walk : List (Option Commit) → Bool → RepoOutcome

/-- `processRepoCommits`: the three early-return failures leave the state
untouched; a walk folds every delivered commit into the state and reports
an error exactly when the iteration failed. The returned pair is (state
of the global maps after the call, error if any) — the Go maps are passed
by reference, so mutations survive an error return. -/
noncomputable def processRepoCommits (repoPath : String) (tau : ℝ)
    (aliasMap : AliasMap) (now : ℝ) (outcome : RepoOutcome) (st : AccState) :
    AccState × Option String :=
  match outcome with
  | .openFail => (st, some "failed to open repository")
  | .headFail => (st, some "failed to get HEAD for repository")
  | .logFail => (st, some "failed to get commit log for repository")
  | .walk cs iterFail =>
    let st' := cs.foldl (processCommit tau aliasMap repoPath now) st
    (st', if iterFail then some "error iterating commits" else none)

/-- `main`'s repository loop: each repository is processed in turn; on an
error the repository is reported with a warning and the loop continues
with the state as the failed call left it. -/
noncomputable def processAllRepos (tau : ℝ) (aliasMap : AliasMap) (now : ℝ)
    (repos : List (String × RepoOutcome)) (st : AccState) : AccState :=
  repos.foldl
    (fun s r => (processRepoCommits r.1 tau aliasMap now r.2 s).1) st

/-! ## Bonus and ranking (`main`) -/

/-- One ranked entry (`OwnerScore` in Go). -/
structure OwnerScore where
  Email : String
  Score : ℝ
  RepoCount : ℕ
  RawScore : ℝ
  AliasesUsed : List String

/-- The multi-repository bonus factor of `main`: `1.0` unless the
identity contributed to more than one repository, in which case
`1.0 + (repoCount-1) * bonusPerRepo`. -/
noncomputable def bonusFactor (repoCount : ℕ) (bonusPerRepo : ℝ) : ℝ :=
  if repoCount > 1 then 1.0 + ((repoCount - 1 : ℕ) : ℝ) * bonusPerRepo else 1.0

/-- Construction of one `OwnerScore` from an identity's accumulated data
(the body of the `for canonicalEmail, rawScore := range globalUserScores`
loop of `main`): sorted alias list, bonus factor from the repository
count, `finalScore = rawScore * bonusFactor`. -/
noncomputable def mkOwnerScore (canonicalEmail : String) (rawScore : ℝ)
    (repoSet : Finset String) (aliasesSet : Finset String)
    (bonusPerRepo : ℝ) : OwnerScore :=
  let repoCount := repoSet.card
  let aliases := aliasesSet.sort (· ≤ ·)
  { Email := canonicalEmail
    Score := rawScore * bonusFactor repoCount bonusPerRepo
    RepoCount := repoCount
    RawScore := rawScore
    AliasesUsed := aliases }

/-- The comparator passed to `sort.Slice` in `main`, flattened from its
nested-`if` form: descending by `Score`; on equal scores descending by
`RepoCount`; on equal scores and counts ascending by `Email`. -/
def ownerLess (a b : OwnerScore) : Prop :=
  (a.Score = b.Score ∧
    ((a.RepoCount = b.RepoCount ∧ a.Email < b.Email) ∨
      (a.RepoCount ≠ b.RepoCount ∧ a.RepoCount > b.RepoCount))) ∨
  (a.Score ≠ b.Score ∧ a.Score > b.Score)

/-- The output truncation of `main`: `limit := *count`, lowered to
`len(owners)` when the list is shorter, then `owners[:limit]`. -/
def truncateOwners (owners : List OwnerScore) (count : ℕ) : List OwnerScore :=
  let limit := if owners.length < count then owners.length else count
  owners.take limit

/-- Every value stored in the map is a fixpoint of `normalize`. The
loader guarantees this because it normalizes every canonical before
storing it. -/
def valuesNormalized (m : AliasMap) : Prop :=
  ∀ k v, m k = some v → normalize v = v

/-- Two ranked entries agree on every field the comparator inspects. -/
def sameKey (a b : OwnerScore) : Prop :=
  a.Score = b.Score ∧ a.RepoCount = b.RepoCount ∧ a.Email = b.Email

/-! ## Character-level facts about the normalization -/

theorem char_le_iff_toNat {a b : Char} : a ≤ b ↔ a.toNat ≤ b.toNat := by
  rw [Char.le_def, UInt32.le_def, BitVec.le_def]
  exact Iff.rfl

theorem char_toNat_inj {a b : Char} (h : a.toNat = b.toNat) : a = b := by
  apply Char.ext
  apply UInt32.eq_of_toBitVec_eq
  apply BitVec.eq_of_toNat_eq
  exact h

theorem toNat_lowerChar_of_upper {c : Char} (h : 'A' ≤ c ∧ c ≤ 'Z') :
    (lowerChar c).toNat = c.toNat + 32 := by
  have h90 : c.toNat ≤ 90 := char_le_iff_toNat.mp h.2
  have hv : (c.toNat + 32).isValidChar := Or.inl (by omega)
  unfold lowerChar
  rw [if_pos h]
  unfold Char.ofNat
  rw [dif_pos hv]
  rfl

theorem toNat_lowerChar_bounds {c : Char} (h : 'A' ≤ c ∧ c ≤ 'Z') :
    97 ≤ (lowerChar c).toNat ∧ (lowerChar c).toNat ≤ 122 := by
  have h65 : 65 ≤ c.toNat := char_le_iff_toNat.mp h.1
  have h90 : c.toNat ≤ 90 := char_le_iff_toNat.mp h.2
  rw [toNat_lowerChar_of_upper h]
  omega

theorem lowerChar_eq_self_of_not_upper {c : Char}
    (h : ¬('A' ≤ c ∧ c ≤ 'Z')) : lowerChar c = c := by
  unfold lowerChar
  rw [if_neg h]

theorem lowerChar_idem (c : Char) : lowerChar (lowerChar c) = lowerChar c := by
  by_cases h : 'A' ≤ c ∧ c ≤ 'Z'
  · have hb := toNat_lowerChar_bounds h
    have hnot : ¬('A' ≤ lowerChar c ∧ lowerChar c ≤ 'Z') := by
      intro hcon
      have hz := char_le_iff_toNat.mp hcon.2
      rw [show ('Z' : Char).toNat = 90 from rfl] at hz
      omega
    exact lowerChar_eq_self_of_not_upper hnot
  · rw [lowerChar_eq_self_of_not_upper h, lowerChar_eq_self_of_not_upper h]

theorem isWhitespace_eq_false_of_toNat {c : Char}
    (h : 65 ≤ c.toNat ∧ c.toNat ≤ 122) : c.isWhitespace = false := by
  have h32 : c ≠ ' ' := fun he =>
    (by decide : ¬(65 ≤ (' ' : Char).toNat ∧ (' ' : Char).toNat ≤ 122)) (he ▸ h)
  have h9 : c ≠ '\t' := fun he =>
    (by decide : ¬(65 ≤ ('\t' : Char).toNat ∧ ('\t' : Char).toNat ≤ 122)) (he ▸ h)
  have h13 : c ≠ '\x0d' := fun he =>
    (by decide : ¬(65 ≤ ('\x0d' : Char).toNat ∧ ('\x0d' : Char).toNat ≤ 122)) (he ▸ h)
  have h10 : c ≠ '\n' := fun he =>
    (by decide : ¬(65 ≤ ('\n' : Char).toNat ∧ ('\n' : Char).toNat ≤ 122)) (he ▸ h)
  simp [Char.isWhitespace, h32, h9, h13, h10]

theorem isWhitespace_lowerChar (c : Char) :
    (lowerChar c).isWhitespace = c.isWhitespace := by
  by_cases h : 'A' ≤ c ∧ c ≤ 'Z'
  · have h65 : 65 ≤ c.toNat := char_le_iff_toNat.mp h.1
    have h90 : c.toNat ≤ 90 := char_le_iff_toNat.mp h.2
    have hb := toNat_lowerChar_bounds h
    rw [isWhitespace_eq_false_of_toNat (by omega),
      isWhitespace_eq_false_of_toNat (by omega)]
  · unfold lowerChar
    rw [if_neg h]

theorem map_lowerChar_idem (l : List Char) :
    (l.map lowerChar).map lowerChar = l.map lowerChar := by
  rw [List.map_map]
  apply List.map_congr_left
  intro a _
  exact lowerChar_idem a

/-! ## List-level facts about the trimming -/

theorem dropWhile_eq_self_of_head {α : Type} (p : α → Bool) (l : List α)
    (h : ∀ hne : l ≠ [], p (l.head hne) = false) : l.dropWhile p = l := by
  cases l with
  | nil => rfl
  | cons a t =>
    have := h (by simp)
    simp only [List.head_cons] at this
    simp [List.dropWhile, this]

theorem trimChars_prefix_dropWhile (l : List Char) :
    trimChars l <+: l.dropWhile Char.isWhitespace := by
  unfold trimChars
  have hs := List.dropWhile_suffix (l := (l.dropWhile Char.isWhitespace).reverse)
    Char.isWhitespace
  have := List.reverse_prefix.mpr hs
  rwa [List.reverse_reverse] at this

theorem head_trimChars_not_white (l : List Char) (h : trimChars l ≠ []) :
    ((trimChars l).head h).isWhitespace = false := by
  have hpre := trimChars_prefix_dropWhile l
  have hd : l.dropWhile Char.isWhitespace ≠ [] := by
    intro hnil
    rw [hnil] at hpre
    exact h (List.prefix_nil.mp hpre)
  rw [hpre.head h]
  exact List.head_dropWhile_not Char.isWhitespace l hd

theorem getLast_trimChars_not_white (l : List Char) (h : trimChars l ≠ []) :
    ((trimChars l).getLast h).isWhitespace = false := by
  unfold trimChars at h ⊢
  rw [List.getLast_reverse h]
  exact List.head_dropWhile_not Char.isWhitespace _ _

theorem trimChars_eq_self (l : List Char)
    (hhead : ∀ hne : l ≠ [], (l.head hne).isWhitespace = false)
    (hlast : ∀ hne : l ≠ [], (l.getLast hne).isWhitespace = false) :
    trimChars l = l := by
  unfold trimChars
  rw [dropWhile_eq_self_of_head _ _ hhead]
  have h2 : ∀ hne : l.reverse ≠ [], ((l.reverse).head hne).isWhitespace = false := by
    intro hne
    rw [List.head_reverse]
    exact hlast _
  rw [dropWhile_eq_self_of_head _ _ h2, List.reverse_reverse]

theorem trimChars_trimmed_map (l : List Char) :
    trimChars ((trimChars l).map lowerChar) = (trimChars l).map lowerChar := by
  apply trimChars_eq_self
  · intro hne
    have hne' : trimChars l ≠ [] := by simpa using hne
    rw [List.head_map, isWhitespace_lowerChar]
    exact head_trimChars_not_white l hne'
  · intro hne
    have hne' : trimChars l ≠ [] := by simpa using hne
    rw [List.getLast_map, isWhitespace_lowerChar]
    exact getLast_trimChars_not_white l hne'

theorem normalize_idem (s : String) : normalize (normalize s) = normalize s := by
  unfold normalize
  congr 1
  rw [show (String.mk ((trimChars s.data).map lowerChar)).data
      = (trimChars s.data).map lowerChar from rfl]
  rw [trimChars_trimmed_map]
  exact map_lowerChar_idem _

/-! ## The loader only stores normalized values -/

theorem valuesNormalized_update {m : AliasMap} (hm : valuesNormalized m)
    (k v : String) (hv : normalize v = v) :
    valuesNormalized (Function.update m k (some v)) := by
  intro k' v' h
  by_cases hk : k' = k
  · subst hk
    rw [Function.update_same] at h
    cases h
    exact hv
  · rw [Function.update_noteq hk] at h
    exact hm k' v' h

theorem processAliasEntry_valuesNormalized {canonical : String}
    (hc : normalize canonical = canonical) {st : LoadState}
    (h1 : valuesNormalized st.aliasMap) (h2 : valuesNormalized st.duplicates)
    (a : String) :
    valuesNormalized (processAliasEntry canonical st a).aliasMap ∧
    valuesNormalized (processAliasEntry canonical st a).duplicates := by
  unfold processAliasEntry
  dsimp only
  split_ifs with hskip hdup
  · exact ⟨h1, h2⟩
  · exact ⟨valuesNormalized_update h1 _ _ hc, valuesNormalized_update h2 _ _ hc⟩
  · exact ⟨valuesNormalized_update h1 _ _ hc, h2⟩

theorem foldl_processAliasEntry_valuesNormalized {canonical : String}
    (hc : normalize canonical = canonical) :
    ∀ (as : List String) (st : LoadState),
      valuesNormalized st.aliasMap → valuesNormalized st.duplicates →
      valuesNormalized ((as.foldl (processAliasEntry canonical) st).aliasMap) ∧
      valuesNormalized ((as.foldl (processAliasEntry canonical) st).duplicates)
  | [], _, h1, h2 => ⟨h1, h2⟩
  | a :: as, st, h1, h2 => by
    have h := processAliasEntry_valuesNormalized hc h1 h2 a
    exact foldl_processAliasEntry_valuesNormalized hc as _ h.1 h.2

theorem processGroup_valuesNormalized {st : LoadState}
    (h1 : valuesNormalized st.aliasMap) (h2 : valuesNormalized st.duplicates)
    (g : String × List String) :
    valuesNormalized ((processGroup st g).aliasMap) ∧
    valuesNormalized ((processGroup st g).duplicates) := by
  unfold processGroup
  dsimp only
  split_ifs with h0 hsk
  · exact ⟨h1, h2⟩
  · exact ⟨h1, h2⟩
  · exact foldl_processAliasEntry_valuesNormalized (normalize_idem g.1) g.2 st h1 h2

theorem foldl_processGroup_valuesNormalized :
    ∀ (gs : List (String × List String)) (st : LoadState),
      valuesNormalized st.aliasMap → valuesNormalized st.duplicates →
      valuesNormalized ((gs.foldl processGroup st).aliasMap) ∧
      valuesNormalized ((gs.foldl processGroup st).duplicates)
  | [], _, h1, h2 => ⟨h1, h2⟩
  | g :: gs, st, h1, h2 => by
    have h := processGroup_valuesNormalized h1 h2 g
    exact foldl_processGroup_valuesNormalized gs _ h.1 h.2

theorem buildAliasMap_valuesNormalized (groups : List (String × List String)) :
    valuesNormalized (buildAliasMap groups) := by
  have hempty : valuesNormalized emptyAliasMap := fun _ _ h => Option.noConfusion h
  have hP := foldl_processGroup_valuesNormalized groups
    ⟨emptyAliasMap, emptyAliasMap⟩ hempty hempty
  intro k v h
  unfold buildAliasMap at h
  rcases hd : (groups.foldl processGroup ⟨emptyAliasMap, emptyAliasMap⟩).duplicates k with _ | c
  · rw [hd] at h
    exact hP.1 k v h
  · rw [hd] at h
    cases h
    exact hP.2 k _ hd

/-! ## Claim C1: the decay weight -/

/-- **C1**: for every commit event the decay weight is
`exp(-ageDays/tau)` with `ageDays = max(0, observationTime - commitTime)`
in days; with `tau > 0`, for every `ageDays ≥ 0` the weight lies in
`(0, 1]`, it is strictly decreasing in `ageDays`, it equals `1` at age
`0`, and a future-dated commit (negative age) receives the same weight as
a commit at age `0`. -/
theorem commitWeight_decay_spec (tau : ℝ) (htau : 0 < tau) :
    (∀ d : ℝ, commitWeight d tau = Real.exp (-(max 0 d) / tau)) ∧
    (∀ d : ℝ, 0 ≤ d → 0 < commitWeight d tau ∧ commitWeight d tau ≤ 1) ∧
    (∀ d₁ d₂ : ℝ, 0 ≤ d₁ → d₁ < d₂ →
      commitWeight d₂ tau < commitWeight d₁ tau) ∧
    commitWeight 0 tau = 1 ∧
    (∀ d : ℝ, d < 0 → commitWeight d tau = commitWeight 0 tau) := by
  have hw : ∀ d : ℝ, 0 ≤ d → commitWeight d tau = Real.exp (-d / tau) := by
    intro d hd
    unfold commitWeight
    rw [if_neg (not_lt.mpr hd)]
  have hone : commitWeight 0 tau = 1 := by
    rw [hw 0 le_rfl, neg_zero, zero_div, Real.exp_zero]
  refine ⟨?_, ?_, ?_, hone, ?_⟩
  · intro d
    unfold commitWeight
    by_cases hd : d < 0
    · rw [if_pos hd, max_eq_left hd.le]
    · rw [if_neg hd, max_eq_right (not_lt.mp hd)]
  · intro d hd
    rw [hw d hd]
    refine ⟨Real.exp_pos _, ?_⟩
    rw [Real.exp_le_one_iff]
    exact div_nonpos_of_nonpos_of_nonneg (neg_nonpos.mpr hd) htau.le
  · intro d₁ d₂ hd1 hlt
    rw [hw d₁ hd1, hw d₂ (le_trans hd1 hlt.le), Real.exp_lt_exp]
    exact (div_lt_div_iff_of_pos_right htau).mpr (neg_lt_neg hlt)
  · intro d hd
    rw [hone]
    unfold commitWeight
    rw [if_pos hd]
    dsimp only
    rw [neg_zero, zero_div, Real.exp_zero]

theorem commitWeight_decay_spec_witness :
    (0 : ℝ) < 365 ∧ commitWeight 0 365 = 1 :=
  ⟨by norm_num, (commitWeight_decay_spec 365 (by norm_num)).2.2.2.1⟩

/-! ## Claim C3: bonus multiplier and final score -/

/-- **C3**: for every accumulated identity the bonus multiplier is `1.0`
for `repositoryCount ≤ 1` and `1.0 + (repositoryCount-1) * bonusPerRepo`
otherwise; `repositoryCount = 1` always yields `1.0`;
`repositoryCount = 3` with `bonusPerRepo = 0.1` yields `1.2`; and the
final score is `rawScore * bonusMultiplier`. -/
theorem bonus_finalScore_spec (bonusPerRepo rawScore : ℝ) (c : String)
    (repoSet aliasesSet : Finset String) :
    (mkOwnerScore c rawScore repoSet aliasesSet bonusPerRepo).Score
      = rawScore * bonusFactor repoSet.card bonusPerRepo ∧
    (∀ n : ℕ, n ≤ 1 → bonusFactor n bonusPerRepo = 1) ∧
    (∀ n : ℕ, 1 < n →
      bonusFactor n bonusPerRepo = 1 + ((n - 1 : ℕ) : ℝ) * bonusPerRepo) ∧
    bonusFactor 1 bonusPerRepo = 1 ∧
    bonusFactor 3 (0.1 : ℝ) = 1.2 := by
  refine ⟨rfl, ?_, ?_, ?_, ?_⟩
  · intro n hn
    unfold bonusFactor
    rw [if_neg (by omega)]
    norm_num
  · intro n hn
    unfold bonusFactor
    rw [if_pos hn]
    norm_num
  · unfold bonusFactor
    norm_num
  · unfold bonusFactor
    rw [if_pos (by norm_num : (3 : ℕ) > 1)]
    norm_num

theorem bonus_finalScore_spec_witness : bonusFactor 1 (37 : ℝ) = 1 :=
  (bonus_finalScore_spec 37 0 "" ∅ ∅).2.2.2.1

/-! ## Claim C9: truncation of the ranked output -/

/-- **C9**: for every (sorted) owner list and every `count ≥ 0` the output
is exactly the first `min(count, length)` entries; a list shorter than
`count` is returned whole, and `count = 0` returns the empty list. -/
theorem truncateOwners_spec :
    (∀ (owners : List OwnerScore) (count : ℕ),
       truncateOwners owners count = owners.take (min count owners.length)) ∧
    (∀ owners : List OwnerScore, truncateOwners owners 0 = []) ∧
    (∀ (owners : List OwnerScore) (count : ℕ), owners.length ≤ count →
       truncateOwners owners count = owners) := by
  have key : ∀ (owners : List OwnerScore) (count : ℕ),
      truncateOwners owners count = owners.take (min count owners.length) := by
    intro owners count
    unfold truncateOwners
    dsimp only
    split_ifs with h
    · rw [min_eq_right h.le]
    · rw [min_eq_left (not_lt.mp h)]
  refine ⟨key, ?_, ?_⟩
  · intro owners
    rw [key]
    simp
  · intro owners count h
    rw [key, min_eq_right h, List.take_length]

theorem truncateOwners_spec_witness :
    truncateOwners [⟨"a", 0, 0, 0, []⟩] 5 = [⟨"a", 0, 0, 0, []⟩] :=
  truncateOwners_spec.2.2 [⟨"a", 0, 0, 0, []⟩] 5 (by norm_num)

/-! ## Claim C10: a missing alias file is not fatal -/

/-- **C10**: when an alias file path is supplied but the file does not
exist, loading succeeds with the empty alias table, `main` does not
abort, and processing continues exactly as when no alias file was
requested. -/
theorem aliasFileMissing_spec (filePath : String) (h : filePath ≠ "") :
    loadAliases filePath .notExist = .ok emptyAliasMap ∧
    mainAliasLoad filePath .notExist = some emptyAliasMap ∧
    mainAliasLoad filePath .notExist = mainAliasLoad "" .notExist := by
  have h1 : loadAliases filePath .notExist = .ok emptyAliasMap := by
    unfold loadAliases
    rw [if_neg h]
  have h2 : mainAliasLoad filePath .notExist = some emptyAliasMap := by
    unfold mainAliasLoad
    rw [h1]
  exact ⟨h1, h2, by rw [h2]; rfl⟩

theorem aliasFileMissing_spec_witness :
    mainAliasLoad "aliases.toml" .notExist = some emptyAliasMap :=
  (aliasFileMissing_spec "aliases.toml" (by decide)).2.1

/-! ## Claim C8: skipped commit events leave the state unchanged -/

/-- **C8**: a `nil` commit, a commit with the zero timestamp, or a commit
with an empty author email is not scored at all: processing it leaves the
whole accumulation state (scores, repository sets, alias sets) unchanged. -/
theorem processCommit_skip_spec (tau : ℝ) (aliasMap : AliasMap)
    (repoPath : String) (now : ℝ) (st : AccState) (c : Option Commit)
    (h : c = none ∨
      ∃ cc, c = some cc ∧ (cc.whenIsZero = true ∨ cc.authorEmail = "")) :
    processCommit tau aliasMap repoPath now st c = st := by
  rcases h with h | ⟨cc, rfl, hcc⟩
  · subst h
    rfl
  · rcases hcc with hz | he
    · simp [processCommit, hz]
    · by_cases hz : cc.whenIsZero = true
      · simp [processCommit, hz]
      · simp [processCommit, hz, he]

theorem processCommit_skip_spec_witness :
    processCommit 1 emptyAliasMap "repo" 0 initialAccState
      (some ⟨"", 0, false⟩) = initialAccState :=
  processCommit_skip_spec 1 emptyAliasMap "repo" 0 initialAccState
    (some ⟨"", 0, false⟩) (Or.inr ⟨⟨"", 0, false⟩, rfl, Or.inr rfl⟩)

/-! ## Claim C6: the loader is order-dependent (no sorting of group keys) -/

/-- **C6** (divergence): `loadAliases` iterates `config.Aliases` with Go's
randomized map iteration order and never sorts the canonical group keys,
so the alias table depends on the iteration order. For the configuration
`aliases = {c1 = [a], c2 = [c1]}`, presenting the groups in the two
possible orders yields two different tables: in one order `a` is mapped,
in the other the whole `c1` group is skipped and `a` is absent. -/
theorem buildAliasMap_order_dependent :
    buildAliasMap [("c1", ["a"]), ("c2", ["c1"])] "a" = some "c1" ∧
    buildAliasMap [("c2", ["c1"]), ("c1", ["a"])] "a" = none := by
  constructor
  · decide
  · decide

/-! ## Claim C5: the no-chain invariant fails on loaded tables -/

/-- **C5** (counterexample): a loaded alias table can contain a canonical
identifier (`c1`, the value stored for key `a`) that simultaneously
appears as a raw key mapping to a *different* canonical (`c2`): a chain of
length 2. -/
theorem aliasTable_chain_counterexample :
    buildAliasMap [("c1", ["a"]), ("c2", ["c1"])] "a" = some "c1" ∧
    buildAliasMap [("c1", ["a"]), ("c2", ["c1"])] "c1" = some "c2" ∧
    ("c2" : String) ≠ "c1" := by
  refine ⟨by decide, by decide, by decide⟩

/-! ## Claim C4: resolution is *not* idempotent on chained tables -/

/-- **C4** (counterexample): over the loaded table of the configuration
`{c1 = [a], c2 = [c1]}` (groups applied in that order), resolving the
result of resolving `a` gives `c2`, not `c1`: resolution is not
idempotent for every loader-built table. -/
theorem getCanonicalEmail_not_idempotent :
    getCanonicalEmail
        (getCanonicalEmail "a" (buildAliasMap [("c1", ["a"]), ("c2", ["c1"])]))
        (buildAliasMap [("c1", ["a"]), ("c2", ["c1"])])
      ≠ getCanonicalEmail "a" (buildAliasMap [("c1", ["a"]), ("c2", ["c1"])]) := by
  decide

/-- **C5** (amended): the loader only guards one direction of the
invariant: a group whose canonical is *already* an alias key at the
moment the group is processed is skipped entirely; this does not prevent
a later group from registering an earlier group's canonical as an alias,
so a canonical identifier may end up as a raw key mapping to a different
canonical and chains of length greater than one can exist in the loaded
table. -/
theorem aliasTable_guard_spec :
    (∀ (st : LoadState) (g : String × List String),
       (st.aliasMap (normalize g.1)).isSome = true → processGroup st g = st) ∧
    (∃ (groups : List (String × List String)) (k v : String),
       buildAliasMap groups k = some v ∧
       buildAliasMap groups v ≠ none ∧ buildAliasMap groups v ≠ some v) := by
  constructor
  · intro st g h
    unfold processGroup
    dsimp only
    by_cases h0 : normalize g.1 = ""
    · rw [if_pos h0]
    · rw [if_neg h0, if_pos h]
  · exact ⟨[("c1", ["a"]), ("c2", ["c1"])], "a", "c1",
      by decide, by decide, by decide⟩

theorem aliasTable_guard_spec_witness :
    processGroup ⟨Function.update emptyAliasMap "x" (some "y"), emptyAliasMap⟩
        ("x", ["z"])
      = ⟨Function.update emptyAliasMap "x" (some "y"), emptyAliasMap⟩ :=
  aliasTable_guard_spec.1 _ ("x", ["z"]) (by decide)

/-- **C4** (amended): resolving a raw identifier whose normalized form is
not a key of the table returns the normalized form unchanged; and
resolution over a loader-built table is idempotent *provided* the table
is chain-free (every stored value, read back as a key, is either absent
or maps to itself). Loader-built tables may contain chains
(`getCanonicalEmail_not_idempotent`), and then idempotence fails. -/
theorem getCanonicalEmail_resolution_spec :
    (∀ (raw : String) (m : AliasMap), m (normalize raw) = none →
       getCanonicalEmail raw m = normalize raw) ∧
    (∀ (groups : List (String × List String)) (raw : String),
       (∀ k v, buildAliasMap groups k = some v →
          buildAliasMap groups v = none ∨ buildAliasMap groups v = some v) →
       getCanonicalEmail (getCanonicalEmail raw (buildAliasMap groups))
           (buildAliasMap groups)
         = getCanonicalEmail raw (buildAliasMap groups)) := by
  have hpart1 : ∀ (raw : String) (m : AliasMap), m (normalize raw) = none →
      getCanonicalEmail raw m = normalize raw := by
    intro raw m h
    unfold getCanonicalEmail
    dsimp only
    rw [h]
  refine ⟨hpart1, ?_⟩
  intro groups raw hnc
  have hvn := buildAliasMap_valuesNormalized groups
  rcases hlook : buildAliasMap groups (normalize raw) with _ | v
  · have h1 : getCanonicalEmail raw (buildAliasMap groups) = normalize raw :=
      hpart1 raw _ hlook
    rw [h1]
    have h2 : buildAliasMap groups (normalize (normalize raw)) = none := by
      rw [normalize_idem]
      exact hlook
    rw [hpart1 (normalize raw) _ h2, normalize_idem]
  · have h1 : getCanonicalEmail raw (buildAliasMap groups) = v := by
      unfold getCanonicalEmail
      dsimp only
      rw [hlook]
    rw [h1]
    have hv : normalize v = v := hvn _ _ hlook
    rcases hnc _ _ hlook with h2 | h2
    · have h3 : buildAliasMap groups (normalize v) = none := by
        rw [hv]
        exact h2
      rw [hpart1 v _ h3, hv]
    · unfold getCanonicalEmail
      dsimp only
      rw [hv, h2]

theorem getCanonicalEmail_resolution_spec_witness :
    getCanonicalEmail (getCanonicalEmail "a" (buildAliasMap [("c1", ["a"])]))
        (buildAliasMap [("c1", ["a"])])
      = getCanonicalEmail "a" (buildAliasMap [("c1", ["a"])]) := by
  apply getCanonicalEmail_resolution_spec.2 [("c1", ["a"])] "a"
  have htab : buildAliasMap [("c1", ["a"])]
      = Function.update emptyAliasMap "a" (some "c1") := funext fun _ => rfl
  intro k v h
  rw [htab] at h ⊢
  by_cases hk : k = "a"
  · subst hk
    rw [Function.update_same] at h
    cases h
    left
    rw [Function.update_noteq (by decide)]
    rfl
  · rw [Function.update_noteq hk] at h
    exact Option.noConfusion h

/-! ## Claim C7: failure isolation for repository processing -/

theorem processCommit_scored (tau : ℝ) (aliasMap : AliasMap) (repoPath : String)
    (now : ℝ) (st : AccState) (cc : Commit)
    (hz : cc.whenIsZero = false) (he : ¬ cc.authorEmail = "") :
    (processCommit tau aliasMap repoPath now st (some cc)).userScores
        (getCanonicalEmail cc.authorEmail aliasMap)
      = st.userScores (getCanonicalEmail cc.authorEmail aliasMap)
        + commitWeight (now - cc.authorWhenDays) tau := by
  unfold processCommit
  dsimp only
  rw [if_neg (by simp [hz] : ¬ cc.whenIsZero = true), if_neg he]
  by_cases halias :
      normalize cc.authorEmail ≠ getCanonicalEmail cc.authorEmail aliasMap
  · rw [if_pos halias]
    dsimp only
    rw [Function.update_same]
  · rw [if_neg halias]
    dsimp only
    rw [Function.update_same]

/-- **C7** (counterexample): a repository whose history walk fails *after*
delivering a commit both reports an error (so `main` prints the skip
warning) and leaves that commit's contribution in the accumulator: the
repository contributed partially, contradicting "contributes nothing /
all-or-none". -/
theorem processRepo_walkFail_partial_pollution :
    ((processRepoCommits "r" 1 emptyAliasMap 0
        (.walk [some ⟨"a@x", 0, false⟩] true) initialAccState).2).isSome
      = true ∧
    (processRepoCommits "r" 1 emptyAliasMap 0
        (.walk [some ⟨"a@x", 0, false⟩] true) initialAccState).1.userScores
        "a@x"
      ≠ initialAccState.userScores "a@x" := by
  constructor
  · rfl
  · have hstep : (processRepoCommits "r" 1 emptyAliasMap 0
        (.walk [some ⟨"a@x", 0, false⟩] true) initialAccState).1
        = processCommit 1 emptyAliasMap "r" 0 initialAccState
            (some ⟨"a@x", 0, false⟩) := rfl
    have hcan : getCanonicalEmail "a@x" emptyAliasMap = "a@x" := by decide
    have h2 := processCommit_scored 1 emptyAliasMap "r" 0 initialAccState
      ⟨"a@x", 0, false⟩ rfl (by decide)
    rw [hcan] at h2
    rw [hstep, h2]
    have hw1 : commitWeight ((0 : ℝ) - 0) 1 = 1 := by
      unfold commitWeight
      rw [if_neg (by norm_num : ¬ ((0 : ℝ) - 0 < 0))]
      dsimp only
      norm_num [Real.exp_zero]
    rw [hw1]
    show (0 : ℝ) + 1 ≠ 0
    norm_num

/-- **C7** (amended): a repository failure detected before iteration
(open, head resolution, or obtaining the log) leaves the accumulator
exactly unchanged and surfaces an error; a clean walk folds in all
delivered commits; a walk that fails mid-iteration keeps the commits
delivered before the failure folded in; and `main`'s loop always
continues with the remaining repositories, whatever the previous
repository returned. -/
theorem processRepo_failure_isolation :
    (∀ (repoPath : String) (tau : ℝ) (aliasMap : AliasMap) (now : ℝ)
        (st : AccState),
       (processRepoCommits repoPath tau aliasMap now .openFail st).1 = st ∧
       (processRepoCommits repoPath tau aliasMap now .headFail st).1 = st ∧
       (processRepoCommits repoPath tau aliasMap now .logFail st).1 = st ∧
       (processRepoCommits repoPath tau aliasMap now .openFail st).2.isSome
         = true ∧
       (processRepoCommits repoPath tau aliasMap now .headFail st).2.isSome
         = true ∧
       (processRepoCommits repoPath tau aliasMap now .logFail st).2.isSome
         = true) ∧
    (∀ (repoPath : String) (tau : ℝ) (aliasMap : AliasMap) (now : ℝ)
        (st : AccState) (cs : List (Option Commit)),
       processRepoCommits repoPath tau aliasMap now (.walk cs false) st
         = (cs.foldl (processCommit tau aliasMap repoPath now) st, none)) ∧
    (∀ (repoPath : String) (tau : ℝ) (aliasMap : AliasMap) (now : ℝ)
        (st : AccState) (cs : List (Option Commit)),
       (processRepoCommits repoPath tau aliasMap now (.walk cs true) st).1
         = cs.foldl (processCommit tau aliasMap repoPath now) st) ∧
    (∀ (tau : ℝ) (aliasMap : AliasMap) (now : ℝ)
        (r : String × RepoOutcome) (rest : List (String × RepoOutcome))
        (st : AccState),
       processAllRepos tau aliasMap now (r :: rest) st
         = processAllRepos tau aliasMap now rest
             (processRepoCommits r.1 tau aliasMap now r.2 st).1) :=
  ⟨fun _ _ _ _ _ => ⟨rfl, rfl, rfl, rfl, rfl, rfl⟩,
   fun _ _ _ _ _ _ => rfl,
   fun _ _ _ _ _ _ => rfl,
   fun _ _ _ _ _ _ => rfl⟩

/-! ## Claim C2: the ranking comparator is a total order -/

theorem ownerLess_iff (a b : OwnerScore) :
    ownerLess a b ↔
      b.Score < a.Score ∨
        (a.Score = b.Score ∧
          (b.RepoCount < a.RepoCount ∨
            (a.RepoCount = b.RepoCount ∧ a.Email < b.Email))) := by
  unfold ownerLess
  constructor
  · rintro (⟨hs, ⟨hc, he⟩ | ⟨_, hcgt⟩⟩ | ⟨_, hgt⟩)
    · exact Or.inr ⟨hs, Or.inr ⟨hc, he⟩⟩
    · exact Or.inr ⟨hs, Or.inl hcgt⟩
    · exact Or.inl hgt
  · rintro (hgt | ⟨hs, hc | ⟨hc, he⟩⟩)
    · exact Or.inr ⟨ne_of_gt hgt, hgt⟩
    · exact Or.inl ⟨hs, Or.inr ⟨ne_of_gt hc, hc⟩⟩
    · exact Or.inl ⟨hs, Or.inl ⟨hc, he⟩⟩

theorem ownerLess_total (a b : OwnerScore) :
    ownerLess a b ∨ ownerLess b a ∨ sameKey a b := by
  rcases lt_trichotomy a.Score b.Score with hs | hs | hs
  · exact Or.inr (Or.inl ((ownerLess_iff b a).mpr (Or.inl hs)))
  · rcases lt_trichotomy a.RepoCount b.RepoCount with hc | hc | hc
    · exact Or.inr (Or.inl ((ownerLess_iff b a).mpr (Or.inr ⟨hs.symm, Or.inl hc⟩)))
    · rcases lt_trichotomy a.Email b.Email with he | he | he
      · exact Or.inl ((ownerLess_iff a b).mpr (Or.inr ⟨hs, Or.inr ⟨hc, he⟩⟩))
      · exact Or.inr (Or.inr ⟨hs, hc, he⟩)
      · exact Or.inr (Or.inl ((ownerLess_iff b a).mpr
          (Or.inr ⟨hs.symm, Or.inr ⟨hc.symm, he⟩⟩)))
    · exact Or.inl ((ownerLess_iff a b).mpr (Or.inr ⟨hs, Or.inl hc⟩))
  · exact Or.inl ((ownerLess_iff a b).mpr (Or.inl hs))

theorem ownerLess_asymm (a b : OwnerScore) (h : ownerLess a b) :
    ¬ ownerLess b a := by
  intro h'
  rw [ownerLess_iff] at h h'
  rcases h with hs | ⟨hs, hc | ⟨hc, he⟩⟩ <;>
    rcases h' with hs' | ⟨hs', hc' | ⟨hc', he'⟩⟩
  · exact lt_asymm hs hs'
  · exact (ne_of_gt hs) hs'.symm
  · exact (ne_of_gt hs) hs'.symm
  · exact hs'.ne hs
  · omega
  · omega
  · exact hs'.ne hs
  · omega
  · exact lt_asymm he he'

theorem ownerLess_trans (a b c : OwnerScore)
    (h1 : ownerLess a b) (h2 : ownerLess b c) : ownerLess a c := by
  rw [ownerLess_iff] at h1 h2 ⊢
  rcases h1 with hs1 | ⟨hs1, hc1 | ⟨hc1, he1⟩⟩ <;>
    rcases h2 with hs2 | ⟨hs2, hc2 | ⟨hc2, he2⟩⟩
  · exact Or.inl (lt_trans hs2 hs1)
  · exact Or.inl (lt_of_eq_of_lt hs2.symm hs1)
  · exact Or.inl (lt_of_eq_of_lt hs2.symm hs1)
  · exact Or.inl (lt_of_lt_of_eq hs2 hs1.symm)
  · exact Or.inr ⟨hs1.trans hs2, Or.inl (lt_trans hc2 hc1)⟩
  · exact Or.inr ⟨hs1.trans hs2, Or.inl (lt_of_eq_of_lt hc2.symm hc1)⟩
  · exact Or.inl (lt_of_lt_of_eq hs2 hs1.symm)
  · exact Or.inr ⟨hs1.trans hs2, Or.inl (lt_of_lt_of_eq hc2 hc1.symm)⟩
  · exact Or.inr ⟨hs1.trans hs2, Or.inr ⟨hc1.trans hc2, lt_trans he1 he2⟩⟩

theorem sorted_perm_unique :
    ∀ (l₁ l₂ : List OwnerScore), l₁.Perm l₂ →
      l₁.Pairwise (fun x y => ¬ ownerLess y x) →
      l₂.Pairwise (fun x y => ¬ ownerLess y x) →
      (∀ x ∈ l₁, ∀ y ∈ l₁, sameKey x y → x = y) →
      l₁ = l₂
  | [], _, hp, _, _, _ => hp.nil_eq
  | a :: t, l₂, hp, hs₁, hs₂, hinj => by
    cases l₂ with
    | nil => exact absurd hp.symm.nil_eq (by simp)
    | cons b t₂ =>
      have hab : a = b := by
        have hbmem : b ∈ a :: t := hp.symm.subset (List.mem_cons_self b t₂)
        have hamem : a ∈ b :: t₂ := hp.subset (List.mem_cons_self a t)
        rcases List.mem_cons.mp hbmem with hba | hbt
        · exact hba.symm
        rcases List.mem_cons.mp hamem with hab' | hat
        · exact hab'
        have h1 : ¬ ownerLess b a := (List.pairwise_cons.mp hs₁).1 b hbt
        have h2 : ¬ ownerLess a b := (List.pairwise_cons.mp hs₂).1 a hat
        rcases ownerLess_total a b with h | h | hkey
        · exact absurd h h2
        · exact absurd h h1
        · exact hinj a (List.mem_cons_self a t) b
            (List.mem_cons.mpr (Or.inr hbt)) hkey
      subst hab
      have hrest := sorted_perm_unique t t₂ hp.cons_inv
        (List.pairwise_cons.mp hs₁).2 (List.pairwise_cons.mp hs₂).2
        (fun x hx y hy hk => hinj x (List.mem_cons.mpr (Or.inr hx)) y
          (List.mem_cons.mpr (Or.inr hy)) hk)
      rw [hrest]

/-- **C2**: the `sort.Slice` comparator of `main` is a strict total order
on ranked entries up to the key `(Score, RepoCount, Email)`: it is total,
asymmetric and transitive; it orders by descending `Score`, then
descending `RepoCount`, then ascending `Email`; and consequently any two
sorted arrangements of the same entries (with key-distinct entries)
coincide — the output order does not depend on map iteration order. -/
theorem ownerLess_total_order_spec :
    (∀ a b : OwnerScore, ownerLess a b ∨ ownerLess b a ∨ sameKey a b) ∧
    (∀ a b : OwnerScore, ownerLess a b → ¬ ownerLess b a) ∧
    (∀ a b c : OwnerScore, ownerLess a b → ownerLess b c → ownerLess a c) ∧
    (∀ a b : OwnerScore, b.Score < a.Score → ownerLess a b) ∧
    (∀ a b : OwnerScore, a.Score = b.Score → b.RepoCount < a.RepoCount →
       ownerLess a b) ∧
    (∀ a b : OwnerScore, a.Score = b.Score → a.RepoCount = b.RepoCount →
       a.Email < b.Email → ownerLess a b) ∧
    (∀ (l₁ l₂ : List OwnerScore), l₁.Perm l₂ →
       l₁.Pairwise (fun x y => ¬ ownerLess y x) →
       l₂.Pairwise (fun x y => ¬ ownerLess y x) →
       (∀ x ∈ l₁, ∀ y ∈ l₁, sameKey x y → x = y) →
       l₁ = l₂) := by
  refine ⟨ownerLess_total, ownerLess_asymm, ownerLess_trans, ?_, ?_, ?_,
    sorted_perm_unique⟩
  · intro a b h
    exact (ownerLess_iff a b).mpr (Or.inl h)
  · intro a b hs hc
    exact (ownerLess_iff a b).mpr (Or.inr ⟨hs, Or.inl hc⟩)
  · intro a b hs hc he
    exact (ownerLess_iff a b).mpr (Or.inr ⟨hs, Or.inr ⟨hc, he⟩⟩)

theorem ownerLess_total_order_spec_witness :
    ownerLess ⟨"alice", 1, 2, 1, []⟩ ⟨"bob", 1, 2, 1, []⟩ :=
  ownerLess_total_order_spec.2.2.2.2.2.1 ⟨"alice", 1, 2, 1, []⟩
    ⟨"bob", 1, 2, 1, []⟩ rfl rfl
    (by rw [String.lt_iff_toList_lt]; decide)

/-! ## Concrete evaluations of the embedding -/

example : normalize " A b@X.com " = "a b@x.com" := by decide
example : getCanonicalEmail "A@X" emptyAliasMap = "a@x" := by decide
example :
    buildAliasMap [("c1", ["a"]), ("c2", ["c1"])] "a" = some "c1" := by decide
example :
    buildAliasMap [("c1", ["a"]), ("c2", ["c1"])] "c1" = some "c2" := by decide
example :
    buildAliasMap [("c2", ["c1"]), ("c1", ["a"])] "a" = none := by decide

end Gitowner
